import Mathlib

/-!
Verification of the DragonDrop S3 uploader (Deno/TypeScript).

The development shallowly embeds the parts of the repository that the
claims concern:

* the chunk-planning loop of `multiPartUpload` in `src/upload.ts`
  (both the `S3Uploader.multiPartUpload` method and the standalone
  `multiPartUpload` function run the identical loop);
* the sequential-cursor file read `Deno.FsFile.read` used by the part
  upload closures of `createPartUploadFn` / `createUploadPartFn`;
* the size-threshold branch of `S3Uploader.uploadFile` and of the
  standalone `uploadFile`;
* the `PromiseQueue` scheduler of `promise-queue.ts`, embedded as a
  state machine whose events are the JavaScript event-loop callbacks
  (a task's promise settling, or a `setTimeout`-scheduled `next()`).
-/

namespace DragonDrop

/-! ## Chunk planning

`S3Uploader.multiPartUpload` (src/upload.ts, lines 158-174) and the
standalone `multiPartUpload` (lines 440-459) plan parts with the loop

  while (remainingBytes > 0) {
    ++currPartNumber;
    const currPartSize = remainingBytes >= chunkByteSize ? chunkByteSize : remainingBytes;
    remainingBytes -= currPartSize;
    queue.add(createUploadPartFn(..., currPartNumber, currPartSize, ...));
  }

The source tracks no explicit offset (its reads are sequential); the
planned byte range of a part is the cumulative range obtained by
consuming the file front to back, which the embedding materialises in
the `offset` field.  The loop is embedded with a fuel argument equal to
the initial `remainingBytes`: when `chunkByteSize > 0` every iteration
consumes at least one byte, so this fuel is exact; for
`chunkByteSize = 0` the source loop would not terminate, and no claim
concerns that case.
-/

structure PartDescriptor where
  partNumber : Nat
  offset : Nat
  length : Nat
  deriving DecidableEq

def multiPartUploadLoop (chunkByteSize : Nat) :
    Nat → Nat → Nat → Nat → List PartDescriptor
  | 0, _, _, _ => []
  | fuel + 1, remainingBytes, currPartNumber, offset =>
    if remainingBytes = 0 then []
    else
      let currPartSize :=
        if chunkByteSize ≤ remainingBytes then chunkByteSize else remainingBytes
      { partNumber := currPartNumber + 1, offset := offset, length := currPartSize } ::
        multiPartUploadLoop chunkByteSize fuel (remainingBytes - currPartSize)
          (currPartNumber + 1) (offset + currPartSize)

/-- The part plan for a file of `fileSize` bytes: the loop above started
from `remainingBytes = fileSize`, `currPartNumber = 0`. -/
def plan (fileSize chunkByteSize : Nat) : List PartDescriptor :=
  multiPartUploadLoop chunkByteSize fileSize fileSize 0 0

/-! ## The size-threshold branch (claim C9)

`S3Uploader.uploadFile` (src/upload.ts, line 117) chooses the multipart
path with `this.fsFileInfo.size >= 1024 * 5_000`, while the standalone
`uploadFile` (line 327) chooses it with `fileStat.size > 1024 * 5_000`.
Both are embedded as a pure choice of upload path on the file size.
-/

inductive UploadPath
  | putObject
  | multipart
  deriving DecidableEq

namespace S3Uploader

/-- Path selection of the `S3Uploader.uploadFile` method:
`if (this.fsFileInfo.size >= 1024 * 5_000) return await this.multiPartUpload();`
else the `PutObjectCommand` branch. -/
def uploadFilePath (fileSize : Nat) : UploadPath :=
  if 1024 * 5000 ≤ fileSize then UploadPath.multipart else UploadPath.putObject

end S3Uploader

/-- Path selection of the standalone `uploadFile` function:
`if (fileStat.size > 1024 * 5_000) return await multiPartUpload(...)`
else the `PutObjectCommand` branch. -/
def uploadFilePath (fileSize : Nat) : UploadPath :=
  if 1024 * 5000 < fileSize then UploadPath.multipart else UploadPath.putObject

/-! ## The file-read model (claims C1 and C10)

The part-upload closures built by `S3Uploader.createPartUploadFn`
(src/upload.ts, lines 210-243) and `createUploadPartFn` (lines 380-414)
read with

  const buffer = new Uint8Array(partByteSize);
  const bytesRead = await this.fsFile.read(buffer);
  assert(bytesRead, '...');

`Deno.FsFile.read` is a *sequential-cursor* read: it reads up to
`buffer.length` bytes starting at the file handle's current position,
advances the position by the number of bytes read, and resolves to that
number, or to `null` at end of file.  The closures pass no offset, so
all concurrently running part tasks share one cursor.  Bytes are `Nat`
(a `Uint8Array` cell); the buffer starts zero-filled, so a short read
leaves a zero tail.
-/

structure FsFile where
  data : List Nat
  pos : Nat
  deriving DecidableEq

/-- `Deno.FsFile.read(buffer)` with `buffer.length = bufSize`: returns
the buffer contents after the read, the resolved value
(`some bytesRead`, or `none` embedding JavaScript `null` at EOF), and
the file handle with its advanced cursor. -/
def FsFile.read (f : FsFile) (bufSize : Nat) : List Nat × Option Nat × FsFile :=
  if f.data.length ≤ f.pos then
    (List.replicate bufSize 0, none, f)
  else
    let chunk := (f.data.drop f.pos).take bufSize
    (chunk ++ List.replicate (bufSize - chunk.length) 0, some chunk.length,
      { f with pos := f.pos + chunk.length })

/-- JavaScript truthiness of the `number | null` value that
`assert(bytesRead, ...)` tests: `null` and `0` are falsy, every other
byte count is truthy. -/
def jsTruthyBytesRead : Option Nat → Bool
  | none => false
  | some n => !(n == 0)

/-- The bytes of `data` that a part descriptor plans to cover:
`[offset, offset + length)`. -/
def plannedChunk (data : List Nat) (p : PartDescriptor) : List Nat :=
  (data.drop p.offset).take p.length

/-- Execute the reads of the part-upload closures over the shared file
handle, in the order the concurrently outstanding `read` operations
resolve (`order` lists indices into `parts`).  Each closure allocates a
`partByteSize` buffer, reads into it from the shared cursor, and uploads
the buffer under its own part number. -/
def runPartsInOrder (f : FsFile) (parts : List PartDescriptor) :
    List Nat → List (Nat × List Nat)
  | [] => []
  | i :: rest =>
    match parts.get? i with
    | none => runPartsInOrder f parts rest
    | some p =>
      let r := FsFile.read f p.length
      (p.partNumber, r.1) :: runPartsInOrder r.2.2 parts rest

/-! ## The PromiseQueue scheduler (promise-queue.ts)

`PromiseQueue` runs up to `concurrency` of the queued zero-argument
asynchronous operations at a time.  The embedding represents a queued
operation by its eventual settlement (`Except.ok` a value, or
`Except.error` a rejection reason); which operation settles first is the
scheduler's nondeterminism and is supplied from outside as a list of
events.  The class fields map one-to-one onto `QueueState`, plus the
bookkeeping the JavaScript runtime keeps implicitly:

* `promiseAll` is the settlement of the aggregate promise
  (`none` while pending — first settlement wins, as for a JS promise);
* `inFlight` lists the started-but-unsettled operations with the
  `fnQueuePos` their callbacks captured;
* `pendingNext` counts queued `setTimeout(() => this.next(), 0)`
  callbacks that have not run yet.

The constructor's `promiseAll.finally` callback (set
`resolvedOrRejected`, clear the backlog) is a microtask queued when the
promise settles, and microtasks run before any pending `setTimeout`
macrotask, so it is folded into the settlement step: by the time any
further `next()` runs, the flag is set and the queue is empty, exactly
as in the source.  A task-settlement callback already queued when the
promise settles behaves identically in both presentations: its
`resolveAll`/`rejectAll` call is a no-op on the settled promise, and the
`next()` it may schedule finds the cleared backlog.
-/

inductive QueueError
  | queueFinalized
  deriving DecidableEq

structure QueueState (E T : Type) where
  queue : List (Except E T)
  queuePos : Nat
  concurrentCounter : Nat
  finalized : Bool
  resolvedOrRejected : Bool
  results : List (Option T)
  promiseAll : Option (Except E (List (Option T)))
  inFlight : List (Nat × Except E T)
  pendingNext : Nat
  concurrency : Nat

variable {E T : Type}

/-- The `PromiseQueue` constructor. -/
def PromiseQueue.new (concurrency : Nat) : QueueState E T where
  queue := []
  queuePos := 0
  concurrentCounter := 0
  finalized := false
  resolvedOrRejected := false
  results := []
  promiseAll := none
  inFlight := []
  pendingNext := 0
  concurrency := concurrency

/-- `PromiseQueue.add(operation)`: throws (here: returns
`Except.error`, leaving the state unchanged) once the queue has been
finalized, otherwise pushes the operation onto the backlog. -/
def PromiseQueue.add (s : QueueState E T) (operation : Except E T) :
    Except QueueError (QueueState E T) :=
  if s.finalized then Except.error QueueError.queueFinalized
  else Except.ok { s with queue := s.queue ++ [operation] }

/-- JavaScript sparse-array assignment `this.results[fnQueuePos] = result`:
writes index `i`, extending the array with holes if `i` is past the end. -/
def setResult : List (Option T) → Nat → T → List (Option T)
  | [], 0, v => [some v]
  | [], i + 1, v => none :: setResult [] i v
  | _ :: t, 0, v => some v :: t
  | h :: t, i + 1, v => h :: setResult t i v

/-- Settling the aggregate promise (`resolveAll` / `rejectAll`): the
first settlement wins; the `.finally` microtask (set
`resolvedOrRejected`, empty the backlog) runs before any queued
`setTimeout` macrotask and is folded in. -/
def settlePromise (s : QueueState E T) (o : Except E (List (Option T))) : QueueState E T :=
  match s.promiseAll with
  | some _ => s
  | none => { s with promiseAll := some o, resolvedOrRejected := true, queue := [] }

/-- `PromiseQueue.next()`: returns immediately when
`queuePos >= queue.length`; otherwise increments the concurrency
counter, captures `fnQueuePos`, advances `queuePos` and starts the
operation `queue[fnQueuePos]` (recorded as in flight). -/
def PromiseQueue.next (s : QueueState E T) : QueueState E T :=
  if h : s.queuePos < s.queue.length then
    { s with
        concurrentCounter := s.concurrentCounter + 1
        queuePos := s.queuePos + 1
        inFlight := s.inFlight ++ [(s.queuePos, s.queue.get ⟨s.queuePos, h⟩)] }
  else s

/-- The settlement callback of a started operation `entry`, applied to
the state in which the counter has already been decremented and the
entry removed from the in-flight list.  Success: store the result at the
captured `fnQueuePos`; then either schedule one more `next()` via
`setTimeout`, or — when nothing is left unstarted, the aggregate is
still pending and nothing is in flight — resolve the aggregate with the
results array.  Failure: reject the aggregate with the reason if it is
still pending. -/
def completeWith (s : QueueState E T) (entry : Nat × Except E T) : QueueState E T :=
  match entry.2 with
  | Except.ok result =>
    let s2 := { s with results := setResult s.results entry.1 result }
    if s2.queuePos < s2.queue.length then
      { s2 with pendingNext := s2.pendingNext + 1 }
    else if s2.resolvedOrRejected = false ∧ s2.concurrentCounter = 0 then
      settlePromise s2 (Except.ok s2.results)
    else s2
  | Except.error reason =>
    if s.resolvedOrRejected = false then settlePromise s (Except.error reason)
    else s

/-- Settlement of the `k`-th in-flight operation: `--concurrentCounter`
followed by the `then`/`catch` callback body. -/
def completeTask (s : QueueState E T) (k : Fin s.inFlight.length) : QueueState E T :=
  completeWith
    { s with
        inFlight := s.inFlight.eraseIdx k.val
        concurrentCounter := s.concurrentCounter - 1 }
    (s.inFlight.get k)

/-- `PromiseQueue.execute()`: on re-entry just returns the stored
aggregate promise; otherwise marks the queue finalized and calls
`next()` synchronously `concurrency` times.  The returned future is
always the state's own `promiseAll`. -/
def PromiseQueue.execute (s : QueueState E T) : QueueState E T :=
  if s.finalized then s
  else PromiseQueue.next^[s.concurrency] { s with finalized := true }

/-- One step of the JavaScript event loop that concerns the queue:
either a pending `setTimeout(() => this.next(), 0)` callback fires, or
the `k`-th in-flight operation settles.  Events that have nothing to
fire leave the state unchanged. -/
inductive QueueEvent
  | runNext
  | complete (k : Nat)
  deriving DecidableEq

def stepEvent (s : QueueState E T) : QueueEvent → QueueState E T
  | QueueEvent.runNext =>
    if s.pendingNext = 0 then s
    else PromiseQueue.next { s with pendingNext := s.pendingNext - 1 }
  | QueueEvent.complete k =>
    if h : k < s.inFlight.length then completeTask s ⟨k, h⟩ else s

/-- Run a sequence of event-loop steps. -/
def runEvents (s : QueueState E T) : List QueueEvent → QueueState E T
  | [] => s
  | e :: es => runEvents (stepEvent s e) es

/-- `add` each operation of a backlog in order (ignoring a throwing
`add`, which cannot occur before `execute`). -/
def addList (s : QueueState E T) : List (Except E T) → QueueState E T
  | [] => s
  | t :: ts =>
    match PromiseQueue.add s t with
    | Except.ok s1 => addList s1 ts
    | Except.error _ => s

/-- A fresh queue with backlog `ts` on which `execute()` has just been
called: the state every run of the scheduler starts from. -/
def initQueue (concurrency : Nat) (ts : List (Except E T)) : QueueState E T :=
  PromiseQueue.execute (addList (PromiseQueue.new concurrency) ts)

/-- The state right after `execute()` has set `finalized`, before its
`next()` loop. -/
def startedState (concurrency : Nat) (ts : List (Except E T)) : QueueState E T where
  queue := ts
  queuePos := 0
  concurrentCounter := 0
  finalized := true
  resolvedOrRejected := false
  results := []
  promiseAll := none
  inFlight := []
  pendingNext := 0
  concurrency := concurrency

/-- The rejection reason of the first in-flight operation (by settlement
time) to fail along a run, if any. -/
def firstFailure (s : QueueState E T) : List QueueEvent → Option E
  | [] => none
  | QueueEvent.runNext :: es => firstFailure (stepEvent s QueueEvent.runNext) es
  | QueueEvent.complete k :: es =>
    if h : k < s.inFlight.length then
      match (s.inFlight.get ⟨k, h⟩).2 with
      | Except.error reason => some reason
      | Except.ok _ => firstFailure (stepEvent s (QueueEvent.complete k)) es
    else firstFailure (stepEvent s (QueueEvent.complete k)) es

/-! ## The scheduler invariant

`InvP ts s` relates a reachable queue state `s` to the original backlog
`ts` (the state's own backlog is emptied when the aggregate settles). -/

structure InvP (ts : List (Except E T)) (s : QueueState E T) : Prop where
  hFinalized : s.finalized = true
  hRor : s.resolvedOrRejected = s.promiseAll.isSome
  hCounter : s.concurrentCounter = s.inFlight.length
  hQueueEq : s.promiseAll = none → s.queue = ts
  hQueueCleared : ∀ o, s.promiseAll = some o → s.queue = []
  hPosLe : s.queuePos ≤ ts.length
  hFlight : ∀ p ∈ s.inFlight, p.1 < s.queuePos ∧ ts.get? p.1 = some p.2
  hCoverage : s.promiseAll = none → ∀ i < s.queuePos,
    (∃ o, (i, o) ∈ s.inFlight) ∨
      ∃ v, ts.get? i = some (Except.ok v) ∧ s.results.get? i = some (some v)
  hResolvedOk : ∀ rs, s.promiseAll = some (Except.ok rs) →
    ∀ i < ts.length, ∃ v, ts.get? i = some (Except.ok v) ∧ rs.get? i = some (some v)

lemma multiPartUploadLoop_closedForm (chunkByteSize : Nat) (hc : 0 < chunkByteSize) :
    ∀ (fuel remainingBytes currPartNumber offset : Nat), remainingBytes ≤ fuel →
      multiPartUploadLoop chunkByteSize fuel remainingBytes currPartNumber offset =
        (List.range ((remainingBytes + chunkByteSize - 1) / chunkByteSize)).map
          (fun k =>
            { partNumber := currPartNumber + k + 1
              offset := offset + k * chunkByteSize
              length := min chunkByteSize (remainingBytes - k * chunkByteSize) }) := by
  intro fuel
  induction fuel with
  | zero =>
    intro rem pn off hle
    have h0 : rem = 0 := Nat.le_zero.mp hle
    subst h0
    have hdiv : (chunkByteSize - 1) / chunkByteSize = 0 :=
      Nat.div_eq_of_lt (by omega)
    simp [multiPartUploadLoop, hdiv]
  | succ fuel ih =>
    intro rem pn off hle
    by_cases h0 : rem = 0
    · subst h0
      have hdiv : (chunkByteSize - 1) / chunkByteSize = 0 :=
        Nat.div_eq_of_lt (by omega)
      simp [multiPartUploadLoop, hdiv]
    · have h1 : 1 ≤ rem := Nat.one_le_iff_ne_zero.mpr h0
      have hmin : (if chunkByteSize ≤ rem then chunkByteSize else rem)
          = min chunkByteSize rem := (min_def chunkByteSize rem).symm
      have hminpos : 1 ≤ min chunkByteSize rem := le_min hc h1
      have hminle : min chunkByteSize rem ≤ rem := min_le_right _ _
      have hceil : (rem + chunkByteSize - 1) / chunkByteSize
          = ((rem - min chunkByteSize rem) + chunkByteSize - 1) / chunkByteSize + 1 := by
        rcases le_or_lt chunkByteSize rem with hcr | hcr
        · rw [min_eq_left hcr]
          have h2 : rem + chunkByteSize - 1
              = (rem - chunkByteSize + chunkByteSize - 1) + chunkByteSize := by omega
          rw [h2, Nat.add_div_right _ hc]
        · rw [min_eq_right (le_of_lt hcr)]
          have h2 : rem - rem = 0 := by omega
          rw [h2]
          have hz : (0 + chunkByteSize - 1) / chunkByteSize = 0 :=
            Nat.div_eq_of_lt (by omega)
          rw [hz]
          have h3 : rem + chunkByteSize - 1 = (rem - 1) + chunkByteSize := by omega
          rw [h3, Nat.add_div_right _ hc, Nat.div_eq_of_lt (by omega)]
      have hrec := ih (rem - min chunkByteSize rem) (pn + 1)
        (off + min chunkByteSize rem) (by omega)
      simp only [multiPartUploadLoop, if_neg h0]
      rw [hmin, hrec, hceil, List.range_succ_eq_map, List.map_cons, List.map_map]
      congr 1
      · simp
      · rcases le_or_lt chunkByteSize rem with hcr | hcr
        · rw [min_eq_left hcr]
          apply List.map_congr_left
          intro k _
          simp only [Function.comp_apply, PartDescriptor.mk.injEq, Nat.succ_eq_add_one]
          have hk1 : (k + 1) * chunkByteSize = k * chunkByteSize + chunkByteSize :=
            Nat.succ_mul k chunkByteSize
          refine ⟨by omega, by omega, ?_⟩
          congr 1
          omega
        · rw [min_eq_right (le_of_lt hcr)]
          have h2 : rem - rem = 0 := by omega
          rw [h2]
          have hz : (0 + chunkByteSize - 1) / chunkByteSize = 0 :=
            Nat.div_eq_of_lt (by omega)
          rw [hz]
          simp

lemma plan_closedForm (fileSize chunkByteSize : Nat) (hc : 0 < chunkByteSize) :
    plan fileSize chunkByteSize =
      (List.range ((fileSize + chunkByteSize - 1) / chunkByteSize)).map
        (fun k =>
          { partNumber := k + 1
            offset := k * chunkByteSize
            length := min chunkByteSize (fileSize - k * chunkByteSize) }) := by
  unfold plan
  rw [multiPartUploadLoop_closedForm chunkByteSize hc fileSize fileSize 0 0 le_rfl]
  simp

lemma multiPartUploadLoop_sumLength (chunkByteSize : Nat) (hc : 0 < chunkByteSize) :
    ∀ (fuel remainingBytes currPartNumber offset : Nat), remainingBytes ≤ fuel →
      ((multiPartUploadLoop chunkByteSize fuel remainingBytes currPartNumber offset).map
        PartDescriptor.length).sum = remainingBytes := by
  intro fuel
  induction fuel with
  | zero =>
    intro rem pn off hle
    have h0 : rem = 0 := Nat.le_zero.mp hle
    subst h0
    simp [multiPartUploadLoop]
  | succ fuel ih =>
    intro rem pn off hle
    by_cases h0 : rem = 0
    · subst h0
      simp [multiPartUploadLoop]
    · have h1 : 1 ≤ rem := Nat.one_le_iff_ne_zero.mpr h0
      have hmin : (if chunkByteSize ≤ rem then chunkByteSize else rem)
          = min chunkByteSize rem := (min_def chunkByteSize rem).symm
      have hminpos : 1 ≤ min chunkByteSize rem := le_min hc h1
      have hminle : min chunkByteSize rem ≤ rem := min_le_right _ _
      have hrec := ih (rem - min chunkByteSize rem) (pn + 1)
        (off + min chunkByteSize rem) (by omega)
      simp only [multiPartUploadLoop, if_neg h0]
      rw [hmin]
      simp only [List.map_cons, List.sum_cons, hrec]
      omega

/-! ## List helpers -/

lemma mem_getOrErase {α : Type} :
    ∀ (l : List α) (k : Nat) (hk : k < l.length) (a : α), a ∈ l →
      a = l.get ⟨k, hk⟩ ∨ a ∈ l.eraseIdx k := by
  intro l
  induction l with
  | nil => intro k hk; simp at hk
  | cons b t ih =>
    intro k hk a ha
    cases k with
    | zero =>
      rcases List.mem_cons.mp ha with h | h
      · exact Or.inl h
      · exact Or.inr h
    | succ k =>
      rcases List.mem_cons.mp ha with h | h
      · exact Or.inr (h ▸ List.mem_cons_self _ _)
      · rcases ih k (by simpa using Nat.lt_of_succ_lt_succ hk) a h with h1 | h1
        · exact Or.inl (by simpa using h1)
        · exact Or.inr (List.mem_cons_of_mem _ h1)

lemma mem_singleton_get {α : Type} (l : List α) (hl : l.length = 1) (a : α)
    (ha : a ∈ l) (k : Fin l.length) : a = l.get k := by
  match l, hl with
  | [x], _ =>
    have hx : a = x := by simpa using ha
    have hk0 : k.val = 0 := by omega
    have hk : k = ⟨0, by simp⟩ := Fin.ext hk0
    rw [hx, hk]
    rfl

lemma setResult_get?_self : ∀ (l : List (Option T)) (i : Nat) (v : T),
    (setResult l i v).get? i = some (some v) := by
  intro l
  induction l with
  | nil =>
    intro i v
    induction i with
    | zero => rfl
    | succ i ih => simpa [setResult] using ih
  | cons h t ih =>
    intro i v
    cases i with
    | zero => rfl
    | succ i => simpa [setResult] using ih i v

lemma setResult_get?_preserve :
    ∀ (l : List (Option T)) (i j : Nat) (v : T) (x : Option T),
      l.get? j = some x → j ≠ i → (setResult l i v).get? j = some x := by
  intro l
  induction l with
  | nil => intro i j v x hx; simp at hx
  | cons h t ih =>
    intro i j v x hx hne
    cases i with
    | zero =>
      cases j with
      | zero => exact absurd rfl hne
      | succ j => simpa [setResult] using hx
    | succ i =>
      cases j with
      | zero => simpa [setResult] using hx
      | succ j =>
        have := ih i j v x (by simpa using hx) (by omega)
        simpa [setResult] using this

/-! ## Basic queue lemmas -/

lemma addList_of_not_finalized :
    ∀ (ts : List (Except E T)) (s : QueueState E T), s.finalized = false →
      addList s ts = { s with queue := s.queue ++ ts } := by
  intro ts
  induction ts with
  | nil => intro s hs; simp [addList]
  | cons t ts ih =>
    intro s hs
    have hadd : PromiseQueue.add s t = Except.ok { s with queue := s.queue ++ [t] } := by
      simp [PromiseQueue.add, hs]
    simp only [addList, hadd]
    rw [ih _ (by simp [hs])]
    simp

lemma initQueue_eq (C : Nat) (ts : List (Except E T)) :
    initQueue C ts = PromiseQueue.next^[C] (startedState C ts) := by
  unfold initQueue
  rw [addList_of_not_finalized ts (PromiseQueue.new C) rfl]
  simp [PromiseQueue.new, PromiseQueue.execute, startedState]

lemma invP_next {ts : List (Except E T)} {s : QueueState E T} (hs : InvP ts s) :
    InvP ts (PromiseQueue.next s) := by
  unfold PromiseQueue.next
  split
  case isFalse => exact hs
  case isTrue h =>
    have hnone : s.promiseAll = none := by
      cases hp : s.promiseAll with
      | none => rfl
      | some o =>
        rw [hs.hQueueCleared o hp] at h
        simp at h
    have hq : s.queue = ts := hs.hQueueEq hnone
    subst hq
    constructor
    · simpa using hs.hFinalized
    · simpa using hs.hRor
    · simpa using hs.hCounter
    · intro _
      rfl
    · intro o ho
      simp only at ho
      rw [hnone] at ho
      cases ho
    · simpa using h
    · intro p hp
      dsimp only at hp ⊢
      rcases List.mem_append.mp hp with h1 | h1
      · obtain ⟨h2, h3⟩ := hs.hFlight p h1
        exact ⟨by omega, h3⟩
      · have h2 : p = (s.queuePos, s.queue.get ⟨s.queuePos, h⟩) := by simpa using h1
        subst h2
        exact ⟨by omega, List.get?_eq_get h⟩
    · intro _ i hi
      dsimp only at hi ⊢
      by_cases hlt : i < s.queuePos
      · rcases hs.hCoverage hnone i hlt with ⟨o, ho⟩ | ⟨v, hv1, hv2⟩
        · exact Or.inl ⟨o, List.mem_append_left _ ho⟩
        · exact Or.inr ⟨v, hv1, hv2⟩
      · have hieq : i = s.queuePos := by omega
        subst hieq
        exact Or.inl ⟨_, List.mem_append_right _ (List.mem_singleton.mpr rfl)⟩
    · intro rs hrs
      simp only at hrs
      rw [hnone] at hrs
      cases hrs

lemma promiseAll_none_of_ror_false {ts : List (Except E T)} {s : QueueState E T}
    (hs : InvP ts s) (h : s.resolvedOrRejected = false) : s.promiseAll = none := by
  cases hp : s.promiseAll with
  | none => rfl
  | some o =>
    have h2 := hs.hRor
    rw [hp, h] at h2
    simp at h2

lemma coverage_after_ok {ts : List (Except E T)} {s : QueueState E T} (hs : InvP ts s)
    (k : Fin s.inFlight.length) (v : T) (hout : (s.inFlight.get k).2 = Except.ok v)
    (hnone : s.promiseAll = none) :
    ∀ i < s.queuePos,
      (∃ o, (i, o) ∈ s.inFlight.eraseIdx k.val) ∨
        ∃ w, ts.get? i = some (Except.ok w) ∧
          (setResult s.results (s.inFlight.get k).1 v).get? i = some (some w) := by
  intro i hi
  obtain ⟨hidx, hts⟩ := hs.hFlight _ (List.get_mem s.inFlight k.val k.isLt)
  by_cases hik : i = (s.inFlight.get k).1
  · subst hik
    right
    refine ⟨v, ?_, setResult_get?_self _ _ _⟩
    rw [hts, hout]
  · rcases hs.hCoverage hnone i hi with ⟨o, ho⟩ | ⟨w, hw1, hw2⟩
    · rcases mem_getOrErase s.inFlight k.val k.isLt (i, o) ho with h1 | h1
      · exact absurd (congrArg Prod.fst h1) hik
      · exact Or.inl ⟨o, h1⟩
    · exact Or.inr ⟨w, hw1, setResult_get?_preserve _ _ _ _ _ hw2 hik⟩

lemma invP_completeTask {ts : List (Except E T)} {s : QueueState E T} (hs : InvP ts s)
    (k : Fin s.inFlight.length) : InvP ts (completeTask s k) := by
  have hmem : s.inFlight.get k ∈ s.inFlight := List.get_mem _ _ _
  obtain ⟨hidx, hts⟩ := hs.hFlight _ hmem
  have herlen : (s.inFlight.eraseIdx k.val).length = s.inFlight.length - 1 :=
    List.length_eraseIdx_of_lt k.isLt
  have hcnt : s.concurrentCounter = s.inFlight.length := hs.hCounter
  have hklt : k.val < s.inFlight.length := k.isLt
  have hflight1 : ∀ p ∈ s.inFlight.eraseIdx k.val,
      p.1 < s.queuePos ∧ ts.get? p.1 = some p.2 :=
    fun p hp => hs.hFlight p (List.mem_of_mem_eraseIdx hp)
  unfold completeTask completeWith
  split
  case _ v heq =>
    -- the operation succeeded with value v
    dsimp only
    split
    case isTrue hlt =>
      -- backlog not exhausted: one more next() is scheduled
      constructor
      · exact hs.hFinalized
      · exact hs.hRor
      · dsimp only; omega
      · dsimp only; exact hs.hQueueEq
      · dsimp only; exact hs.hQueueCleared
      · dsimp only; exact hs.hPosLe
      · dsimp only; exact hflight1
      · dsimp only
        intro hnone i hi
        exact coverage_after_ok hs k v heq hnone i hi
      · dsimp only; exact hs.hResolvedOk
    case isFalse hlt =>
      split
      case isTrue hcond =>
        -- nothing unstarted, promise pending, nothing else in flight: resolve
        obtain ⟨hror, hzero⟩ := hcond
        have hnone : s.promiseAll = none := promiseAll_none_of_ror_false hs hror
        have hlen1 : s.inFlight.length = 1 := by omega
        have hqts : s.queue = ts := hs.hQueueEq hnone
        have hqpos : s.queuePos = ts.length := by
          rw [hqts] at hlt
          have := hs.hPosLe
          omega
        have hernil : s.inFlight.eraseIdx k.val = [] :=
          List.length_eq_zero.mp (by omega)
        unfold settlePromise
        split
        case _ o heq2 =>
          dsimp only at heq2
          rw [hnone] at heq2
          cases heq2
        case _ heq2 =>
          constructor
          · exact hs.hFinalized
          · simp
          · dsimp only; rw [hernil, List.length_nil]; omega
          · intro h2; cases h2
          · intro o _; rfl
          · dsimp only; exact hs.hPosLe
          · dsimp only
            rw [hernil]
            intro p hp
            simp at hp
          · intro h2; cases h2
          · intro rs hrs i hi
            dsimp only at hrs
            rw [Option.some.injEq, Except.ok.injEq] at hrs
            subst hrs
            rcases hs.hCoverage hnone i (by omega) with ⟨o, ho⟩ | ⟨w, hw1, hw2⟩
            · have h1 : (i, o) = s.inFlight.get k :=
                mem_singleton_get s.inFlight hlen1 (i, o) ho k
              have hieq : i = (s.inFlight.get k).1 := congrArg Prod.fst h1
              refine ⟨v, ?_, ?_⟩
              · rw [hieq, hts, heq]
              · rw [hieq]
                exact setResult_get?_self _ _ _
            · by_cases hik : i = (s.inFlight.get k).1
              · have hw1v : ts.get? i = some (Except.ok v) := by rw [hik, hts, heq]
                refine ⟨v, hw1v, ?_⟩
                rw [hik]
                exact setResult_get?_self _ _ _
              · exact ⟨w, hw1, setResult_get?_preserve _ _ _ _ _ hw2 hik⟩
      case isFalse hcond =>
        constructor
        · exact hs.hFinalized
        · exact hs.hRor
        · dsimp only; omega
        · dsimp only; exact hs.hQueueEq
        · dsimp only; exact hs.hQueueCleared
        · dsimp only; exact hs.hPosLe
        · dsimp only; exact hflight1
        · dsimp only
          intro hnone i hi
          exact coverage_after_ok hs k v heq hnone i hi
        · dsimp only; exact hs.hResolvedOk
  case _ e heq =>
    -- the operation failed with reason e
    dsimp only
    split
    case isTrue hror =>
      have hnone : s.promiseAll = none := promiseAll_none_of_ror_false hs hror
      unfold settlePromise
      split
      case _ o heq2 =>
        dsimp only at heq2
        rw [hnone] at heq2
        cases heq2
      case _ heq2 =>
        constructor
        · exact hs.hFinalized
        · simp
        · dsimp only; omega
        · intro h2; cases h2
        · intro o _; rfl
        · dsimp only; exact hs.hPosLe
        · dsimp only; exact hflight1
        · intro h2; cases h2
        · intro rs hrs
          dsimp only at hrs
          rw [Option.some.injEq] at hrs
          cases hrs
    case isFalse hror =>
      constructor
      · exact hs.hFinalized
      · exact hs.hRor
      · dsimp only; omega
      · dsimp only; exact hs.hQueueEq
      · dsimp only; exact hs.hQueueCleared
      · dsimp only; exact hs.hPosLe
      · dsimp only; exact hflight1
      · dsimp only
        intro hnone
        exfalso
        apply hror
        rw [hs.hRor, hnone]
        rfl
      · dsimp only; exact hs.hResolvedOk

lemma invP_pendingNext {ts : List (Except E T)} {s : QueueState E T} (hs : InvP ts s)
    (m : Nat) : InvP ts { s with pendingNext := m } :=
  ⟨hs.hFinalized, hs.hRor, hs.hCounter, hs.hQueueEq, hs.hQueueCleared, hs.hPosLe,
    hs.hFlight, hs.hCoverage, hs.hResolvedOk⟩

lemma invP_stepEvent {ts : List (Except E T)} {s : QueueState E T} (hs : InvP ts s)
    (e : QueueEvent) : InvP ts (stepEvent s e) := by
  cases e with
  | runNext =>
    simp only [stepEvent]
    split
    · exact hs
    · exact invP_next (invP_pendingNext hs _)
  | complete k =>
    simp only [stepEvent]
    split
    case isTrue h => exact invP_completeTask hs ⟨k, h⟩
    case isFalse => exact hs

lemma invP_runEvents {ts : List (Except E T)} :
    ∀ (evs : List QueueEvent) (s : QueueState E T), InvP ts s →
      InvP ts (runEvents s evs) := by
  intro evs
  induction evs with
  | nil => intro s hs; exact hs
  | cons e es ih => intro s hs; exact ih _ (invP_stepEvent hs e)

lemma invP_startedState (C : Nat) (ts : List (Except E T)) :
    InvP ts (startedState C ts) := by
  constructor
  · rfl
  · rfl
  · rfl
  · intro _; rfl
  · intro o h; cases h
  · exact Nat.zero_le _
  · intro p hp; simp [startedState] at hp
  · intro _ i hi; exact absurd hi (Nat.not_lt_zero i)
  · intro rs h; cases h

lemma invP_iterate_next {ts : List (Except E T)} (n : Nat) :
    ∀ (s : QueueState E T), InvP ts s → InvP ts (PromiseQueue.next^[n] s) := by
  induction n with
  | zero => intro s hs; exact hs
  | succ n ih =>
    intro s hs
    rw [Function.iterate_succ_apply]
    exact ih _ (invP_next hs)

lemma invP_initQueue (C : Nat) (ts : List (Except E T)) : InvP ts (initQueue C ts) := by
  rw [initQueue_eq]
  exact invP_iterate_next C _ (invP_startedState C ts)

/-! ### The concurrency budget

`concurrentCounter + pendingNext` never increases under an event-loop
step: a completion decrements the counter and schedules at most one
`next()`, and a fired `next()` consumes its token and increments the
counter by at most one.  `execute()` raises it to at most the
concurrency limit. -/

lemma budget_next (s : QueueState E T) :
    (PromiseQueue.next s).concurrentCounter + (PromiseQueue.next s).pendingNext
      ≤ s.concurrentCounter + s.pendingNext + 1 := by
  unfold PromiseQueue.next
  split <;> (try dsimp only) <;> omega

lemma budget_completeWith (s : QueueState E T) (entry : Nat × Except E T) :
    (completeWith s entry).concurrentCounter + (completeWith s entry).pendingNext
      ≤ s.concurrentCounter + s.pendingNext + 1 := by
  unfold completeWith
  split
  · dsimp only
    split
    · dsimp only; omega
    · split
      · unfold settlePromise
        split <;> (try dsimp only) <;> omega
      · dsimp only; omega
  · split
    · unfold settlePromise
      split <;> (try dsimp only) <;> omega
    · omega

lemma budget_stepEvent {ts : List (Except E T)} {s : QueueState E T} (hs : InvP ts s)
    (e : QueueEvent) :
    (stepEvent s e).concurrentCounter + (stepEvent s e).pendingNext
      ≤ s.concurrentCounter + s.pendingNext := by
  cases e with
  | runNext =>
    simp only [stepEvent]
    split
    case isTrue => exact le_rfl
    case isFalse h =>
      have hb := budget_next { s with pendingNext := s.pendingNext - 1 }
      dsimp only at hb
      omega
  | complete k =>
    simp only [stepEvent]
    split
    case isTrue hk =>
      have hge : 1 ≤ s.concurrentCounter := by
        have := hs.hCounter
        omega
      have hb := budget_completeWith
        { s with
            inFlight := s.inFlight.eraseIdx k
            concurrentCounter := s.concurrentCounter - 1 }
        (s.inFlight.get ⟨k, hk⟩)
      unfold completeTask
      dsimp only at hb ⊢
      omega
    case isFalse => exact le_rfl

lemma budget_runEvents {ts : List (Except E T)} :
    ∀ (evs : List QueueEvent) (s : QueueState E T), InvP ts s →
      (runEvents s evs).concurrentCounter + (runEvents s evs).pendingNext
        ≤ s.concurrentCounter + s.pendingNext := by
  intro evs
  induction evs with
  | nil => intro s _; exact le_rfl
  | cons e es ih =>
    intro s hs
    exact le_trans (ih _ (invP_stepEvent hs e)) (budget_stepEvent hs e)

lemma budget_iterate_next (n : Nat) :
    ∀ (s : QueueState E T),
      (PromiseQueue.next^[n] s).concurrentCounter + (PromiseQueue.next^[n] s).pendingNext
        ≤ s.concurrentCounter + s.pendingNext + n := by
  induction n with
  | zero => intro s; simp
  | succ n ih =>
    intro s
    rw [Function.iterate_succ_apply]
    have h1 := ih (PromiseQueue.next s)
    have h2 := budget_next s
    omega

lemma budget_initQueue (C : Nat) (ts : List (Except E T)) :
    (initQueue C ts).concurrentCounter + (initQueue C ts).pendingNext ≤ C := by
  rw [initQueue_eq]
  have := budget_iterate_next C (startedState C ts)
  simpa [startedState] using this

/-! ### Permanence of the aggregate settlement -/

lemma settlePromise_of_some {s : QueueState E T} {o : Except E (List (Option T))}
    (h : s.promiseAll = some o) (x : Except E (List (Option T))) :
    settlePromise s x = s := by
  unfold settlePromise
  split
  · rfl
  case _ heq => rw [h] at heq; cases heq

lemma promiseAll_next (s : QueueState E T) :
    (PromiseQueue.next s).promiseAll = s.promiseAll := by
  unfold PromiseQueue.next
  split <;> rfl

lemma promiseAll_runNext_step (s : QueueState E T) :
    (stepEvent s QueueEvent.runNext).promiseAll = s.promiseAll := by
  simp only [stepEvent]
  split
  · rfl
  · rw [promiseAll_next]

lemma promiseAll_settled_stepEvent {s : QueueState E T} {o : Except E (List (Option T))}
    (h : s.promiseAll = some o) (e : QueueEvent) :
    (stepEvent s e).promiseAll = some o := by
  cases e with
  | runNext => rw [promiseAll_runNext_step]; exact h
  | complete k =>
    simp only [stepEvent]
    split
    case isFalse => exact h
    case isTrue hk =>
      unfold completeTask completeWith
      split
      · dsimp only
        split
        · exact h
        · split
          · unfold settlePromise
            split
            · exact h
            case _ heq => simp [h] at heq
          · exact h
      · split
        · unfold settlePromise
          split
          · exact h
          case _ heq => simp [h] at heq
        · exact h

lemma promiseAll_settled_runEvents {o : Except E (List (Option T))} :
    ∀ (evs : List QueueEvent) (s : QueueState E T), s.promiseAll = some o →
      (runEvents s evs).promiseAll = some o := by
  intro evs
  induction evs with
  | nil => intro s h; exact h
  | cons e es ih => intro s h; exact ih _ (promiseAll_settled_stepEvent h e)

/-! ### No starts after settlement -/

lemma queuePos_completeTask (s : QueueState E T) (k : Fin s.inFlight.length) :
    (completeTask s k).queuePos = s.queuePos := by
  unfold completeTask completeWith
  split
  · dsimp only
    split
    · rfl
    · split
      · unfold settlePromise
        split <;> rfl
      · rfl
  · split
    · unfold settlePromise
      split <;> rfl
    · rfl

lemma queuePos_settled_stepEvent {ts : List (Except E T)} {s : QueueState E T}
    (hs : InvP ts s) {o : Except E (List (Option T))} (h : s.promiseAll = some o)
    (e : QueueEvent) : (stepEvent s e).queuePos = s.queuePos := by
  cases e with
  | runNext =>
    simp only [stepEvent]
    split
    · rfl
    · unfold PromiseQueue.next
      split
      case isTrue hlt =>
        dsimp only at hlt
        rw [hs.hQueueCleared o h] at hlt
        simp at hlt
      case isFalse => rfl
  | complete k =>
    simp only [stepEvent]
    split
    · rw [queuePos_completeTask]
    · rfl

lemma queuePos_settled_runEvents {ts : List (Except E T)}
    {o : Except E (List (Option T))} :
    ∀ (evs : List QueueEvent) (s : QueueState E T), InvP ts s → s.promiseAll = some o →
      (runEvents s evs).queuePos = s.queuePos := by
  intro evs
  induction evs with
  | nil => intro s _ _; rfl
  | cons e es ih =>
    intro s hs h
    have h1 := ih (stepEvent s e) (invP_stepEvent hs e) (promiseAll_settled_stepEvent h e)
    rw [runEvents, h1, queuePos_settled_stepEvent hs h]

/-! ### Deadlocked states -/

lemma next_fixed_of_no_work {s : QueueState E T} (h : ¬ s.queuePos < s.queue.length) :
    PromiseQueue.next s = s := by
  unfold PromiseQueue.next
  rw [dif_neg h]

lemma stepEvent_fixed {s : QueueState E T} (hpn : s.pendingNext = 0)
    (hif : s.inFlight = []) (e : QueueEvent) : stepEvent s e = s := by
  cases e with
  | runNext =>
    simp only [stepEvent]
    rw [if_pos hpn]
  | complete k =>
    simp only [stepEvent]
    rw [dif_neg]
    rw [hif]
    simp

lemma runEvents_fixed {s : QueueState E T} (hpn : s.pendingNext = 0)
    (hif : s.inFlight = []) : ∀ (evs : List QueueEvent), runEvents s evs = s := by
  intro evs
  induction evs with
  | nil => rfl
  | cons e es ih => rw [runEvents, stepEvent_fixed hpn hif, ih]

lemma initQueue_nil (C : Nat) :
    initQueue C ([] : List (Except E T)) = startedState C [] := by
  rw [initQueue_eq]
  apply Function.iterate_fixed
  apply next_fixed_of_no_work
  simp [startedState]

lemma initQueue_zero (ts : List (Except E T)) :
    initQueue 0 ts = startedState 0 ts := by
  rw [initQueue_eq]
  rfl

/-! ### The first failure settles the aggregate -/

lemma promiseAll_iterate_next (n : Nat) :
    ∀ (s : QueueState E T), (PromiseQueue.next^[n] s).promiseAll = s.promiseAll := by
  induction n with
  | zero => intro s; rfl
  | succ n ih =>
    intro s
    rw [Function.iterate_succ_apply, ih, promiseAll_next]

lemma promiseAll_initQueue (C : Nat) (ts : List (Except E T)) :
    (initQueue C ts).promiseAll = none := by
  rw [initQueue_eq, promiseAll_iterate_next]
  rfl

lemma stepEvent_error_settles {ts : List (Except E T)} {s : QueueState E T} (hs : InvP ts s)
    (hnone : s.promiseAll = none) (k : Nat) (hk : k < s.inFlight.length) (r : E)
    (hout : (s.inFlight.get ⟨k, hk⟩).2 = Except.error r) :
    (stepEvent s (QueueEvent.complete k)).promiseAll = some (Except.error r) := by
  simp only [stepEvent]
  rw [dif_pos hk]
  unfold completeTask completeWith
  split
  case _ v heq => rw [hout] at heq; cases heq
  case _ r' heq =>
    rw [hout] at heq
    cases heq
    dsimp only
    have hror : s.resolvedOrRejected = false := by rw [hs.hRor, hnone]; rfl
    rw [if_pos hror]
    unfold settlePromise
    split
    case _ o heq2 => dsimp only at heq2; rw [hnone] at heq2; cases heq2
    case _ => rfl

lemma stepEvent_ok_pending_or_resolved {s : QueueState E T} (k : Nat)
    (hk : k < s.inFlight.length) (v : T)
    (hout : (s.inFlight.get ⟨k, hk⟩).2 = Except.ok v) :
    (stepEvent s (QueueEvent.complete k)).promiseAll = s.promiseAll ∨
      ∃ rs, (stepEvent s (QueueEvent.complete k)).promiseAll = some (Except.ok rs) := by
  simp only [stepEvent]
  rw [dif_pos hk]
  unfold completeTask completeWith
  split
  case _ v' heq =>
    dsimp only
    split
    · exact Or.inl rfl
    · split
      · unfold settlePromise
        split
        · exact Or.inl rfl
        · exact Or.inr ⟨_, rfl⟩
      · exact Or.inl rfl
  case _ r heq => rw [hout] at heq; cases heq

lemma firstFailure_of_rejected {ts : List (Except E T)} {e : E} :
    ∀ (evs : List QueueEvent) (s : QueueState E T), InvP ts s → s.promiseAll = none →
      (runEvents s evs).promiseAll = some (Except.error e) →
      firstFailure s evs = some e := by
  intro evs
  induction evs with
  | nil =>
    intro s _ hnone hrej
    simp only [runEvents] at hrej
    rw [hnone] at hrej
    cases hrej
  | cons ev es ih =>
    intro s hs hnone hrej
    have hrej2 : (runEvents (stepEvent s ev) es).promiseAll = some (Except.error e) := hrej
    cases ev with
    | runNext =>
      have hpn : (stepEvent s QueueEvent.runNext).promiseAll = none := by
        rw [promiseAll_runNext_step]; exact hnone
      simp only [firstFailure]
      exact ih _ (invP_stepEvent hs _) hpn hrej2
    | complete k =>
      by_cases hk : k < s.inFlight.length
      · simp only [firstFailure]
        rw [dif_pos hk]
        cases hout : (s.inFlight.get ⟨k, hk⟩).2 with
        | error r =>
          have hset := stepEvent_error_settles hs hnone k hk r hout
          have hfin := promiseAll_settled_runEvents es _ hset
          rw [hrej2] at hfin
          rw [Option.some.injEq, Except.error.injEq] at hfin
          subst hfin
          rfl
        | ok v =>
          rcases stepEvent_ok_pending_or_resolved k hk v hout with hp | ⟨rs, hp⟩
          · exact ih _ (invP_stepEvent hs _) (by rw [hp]; exact hnone) hrej2
          · have hfin := promiseAll_settled_runEvents es _ hp
            rw [hrej2] at hfin
            simp at hfin
      · have hse : stepEvent s (QueueEvent.complete k) = s := by
          simp only [stepEvent]
          rw [dif_neg hk]
        simp only [firstFailure]
        rw [dif_neg hk, hse]
        rw [hse] at hrej2
        exact ih _ hs hnone hrej2

/-! ## The claims -/

/-- Claim C1: the claim asserts that each part-upload task reads exactly
the byte range `[offset, offset + length)` of its own descriptor,
independent of the order in which the concurrently outstanding reads
resolve.  The code instead reads through the shared sequential cursor of
the one `Deno.FsFile` (`await this.fsFile.read(buffer)` with no
offset), so the bytes a part receives depend on the resolution order.
Witnessed here at the failing input: file bytes `[0, 1]`,
`chunkByteSize = 1`, two planned parts; when the two outstanding reads
resolve in the order (part 2, part 1), part number 2 uploads `[0]` —
the first planned chunk — although its planned chunk is `[1]`.  The
in-order resolution is also evaluated for contrast. -/
theorem c1_sharedCursorMisattributesBytes :
    plan 2 1 = [⟨1, 0, 1⟩, ⟨2, 1, 1⟩] ∧
    runPartsInOrder ⟨[0, 1], 0⟩ (plan 2 1) [0, 1] = [(1, [0]), (2, [1])] ∧
    runPartsInOrder ⟨[0, 1], 0⟩ (plan 2 1) [1, 0] = [(2, [0]), (1, [1])] ∧
    plannedChunk [0, 1] ⟨2, 1, 1⟩ = [1] ∧
    ([0] : List Nat) ≠ [1] := by
  refine ⟨?_, ?_, ?_, ?_, ?_⟩ <;> decide

/-- Claim C2: whenever the aggregate promise of `execute()` resolves,
the `i`-th slot of the resolved results array holds exactly the value of
the `i`-th submitted task — results are indexed by submission position
(`this.results[fnQueuePos] = result`), not by completion order, and the
aggregate only resolves once every task has succeeded. -/
theorem c2_orderedResults {E T : Type} (C : Nat) (ts : List (Except E T))
    (evs : List QueueEvent) (rs : List (Option T))
    (hres : (runEvents (initQueue C ts) evs).promiseAll = some (Except.ok rs)) :
    ∀ i < ts.length, ∃ v, ts.get? i = some (Except.ok v) ∧ rs.get? i = some (some v) := by
  have hinv := invP_runEvents evs (initQueue C ts) (invP_initQueue C ts)
  exact hinv.hResolvedOk rs hres

/-- Witness for C2: two tasks completing in reverse order still resolve
to the submission-ordered results array. -/
theorem c2_orderedResultsWitness :
    (runEvents (initQueue 2 ([Except.ok 10, Except.ok 20] : List (Except Nat Nat)))
        [QueueEvent.complete 1, QueueEvent.complete 0]).promiseAll
      = some (Except.ok [some 10, some 20]) ∧
    ∀ i < ([Except.ok 10, Except.ok 20] : List (Except Nat Nat)).length,
      ∃ v, ([Except.ok 10, Except.ok 20] : List (Except Nat Nat)).get? i
          = some (Except.ok v) ∧
        ([some 10, some 20] : List (Option Nat)).get? i = some (some v) :=
  ⟨rfl, c2_orderedResults 2 [Except.ok 10, Except.ok 20]
    [QueueEvent.complete 1, QueueEvent.complete 0] [some 10, some 20] rfl⟩

/-- Claim C3: in every reachable state of a queue executing a backlog
`ts` with limit `C`, the started-but-unsettled operations
(`concurrentCounter`, equal to the in-flight list) never exceed `C`:
`execute()` starts at most `C`, and afterwards a task is only started by
a `next()` scheduled by a completion, which first decremented the
counter. -/
theorem c3_concurrencyBound {E T : Type} (C : Nat) (ts : List (Except E T))
    (evs : List QueueEvent) :
    (runEvents (initQueue C ts) evs).concurrentCounter
        = (runEvents (initQueue C ts) evs).inFlight.length ∧
    (runEvents (initQueue C ts) evs).inFlight.length ≤ C := by
  have hinv := invP_runEvents evs (initQueue C ts) (invP_initQueue C ts)
  have hb := budget_runEvents evs (initQueue C ts) (invP_initQueue C ts)
  have hb2 := budget_initQueue C ts
  have hc := hinv.hCounter
  exact ⟨hc, by omega⟩

/-- Claim C4: if the aggregate promise rejects, its reason is exactly
that of the first task (by settlement time) to fail; the aggregate can
never later resolve (results of tasks settling afterwards are never
surfaced), and no further task is started (`queuePos`, the count of
started tasks, is frozen). -/
theorem c4_failFast {E T : Type} (C : Nat) (ts : List (Except E T))
    (evs : List QueueEvent) (e : E)
    (hrej : (runEvents (initQueue C ts) evs).promiseAll = some (Except.error e)) :
    firstFailure (initQueue C ts) evs = some e ∧
    (∀ evs2, (runEvents (runEvents (initQueue C ts) evs) evs2).promiseAll
        = some (Except.error e)) ∧
    (∀ evs2, (runEvents (runEvents (initQueue C ts) evs) evs2).queuePos
        = (runEvents (initQueue C ts) evs).queuePos) := by
  have hinv0 := invP_initQueue C ts
  have hinv := invP_runEvents evs _ hinv0
  refine ⟨?_, ?_, ?_⟩
  · exact firstFailure_of_rejected evs _ hinv0 (promiseAll_initQueue C ts) hrej
  · intro evs2
    exact promiseAll_settled_runEvents evs2 _ hrej
  · intro evs2
    exact queuePos_settled_runEvents evs2 _ hinv hrej

/-- Witness for C4: three tasks, limit 2; the second task fails first
and the aggregate rejects with its reason 7, permanently. -/
theorem c4_failFastWitness :
    (runEvents (initQueue 2 ([Except.ok 1, Except.error 7, Except.ok 2] :
          List (Except Nat Nat))) [QueueEvent.complete 1]).promiseAll
      = some (Except.error 7) ∧
    firstFailure (initQueue 2 ([Except.ok 1, Except.error 7, Except.ok 2] :
        List (Except Nat Nat))) [QueueEvent.complete 1] = some 7 ∧
    (runEvents (runEvents (initQueue 2 ([Except.ok 1, Except.error 7, Except.ok 2] :
          List (Except Nat Nat))) [QueueEvent.complete 1])
        [QueueEvent.complete 0]).promiseAll = some (Except.error 7) :=
  ⟨rfl,
    (c4_failFast 2 [Except.ok 1, Except.error 7, Except.ok 2]
      [QueueEvent.complete 1] 7 rfl).1,
    (c4_failFast 2 [Except.ok 1, Except.error 7, Except.ok 2]
      [QueueEvent.complete 1] 7 rfl).2.1 [QueueEvent.complete 0]⟩

/-- Claim C5: for positive file and chunk sizes the plan tiles
`[0, fileSize)` contiguously: exactly `ceil(fileSize / chunkByteSize)`
parts; part numbers `1, 2, ...` with no gaps; part `k` (0-based) starts
at offset `k * chunkByteSize` with length
`min(chunkByteSize, remaining)`; every part but the last has the full
chunk length and consecutive parts are adjacent; the lengths sum to
`fileSize`.  Determinism is inherent: `plan` is a pure function of its
two arguments. -/
theorem c5_planPartition (fileSize chunkByteSize : Nat)
    (hf : 0 < fileSize) (hc : 0 < chunkByteSize) :
    (plan fileSize chunkByteSize).length
        = (fileSize + chunkByteSize - 1) / chunkByteSize ∧
    0 < (plan fileSize chunkByteSize).length ∧
    (∀ k (hk : k < (plan fileSize chunkByteSize).length),
      ((plan fileSize chunkByteSize).get ⟨k, hk⟩).partNumber = k + 1 ∧
      ((plan fileSize chunkByteSize).get ⟨k, hk⟩).offset = k * chunkByteSize ∧
      ((plan fileSize chunkByteSize).get ⟨k, hk⟩).length
        = min chunkByteSize (fileSize - k * chunkByteSize)) ∧
    (∀ k (hk1 : k + 1 < (plan fileSize chunkByteSize).length),
      ((plan fileSize chunkByteSize).get ⟨k, Nat.lt_of_succ_lt hk1⟩).length
          = chunkByteSize ∧
      ((plan fileSize chunkByteSize).get ⟨k + 1, hk1⟩).offset
        = ((plan fileSize chunkByteSize).get ⟨k, Nat.lt_of_succ_lt hk1⟩).offset
          + ((plan fileSize chunkByteSize).get ⟨k, Nat.lt_of_succ_lt hk1⟩).length) ∧
    ((plan fileSize chunkByteSize).map PartDescriptor.length).sum = fileSize := by
  have hplan := plan_closedForm fileSize chunkByteSize hc
  have hceil1 : (fileSize + chunkByteSize - 1) / chunkByteSize
      = (fileSize - 1) / chunkByteSize + 1 := by
    have h2 : fileSize + chunkByteSize - 1 = (fileSize - 1) + chunkByteSize := by omega
    rw [h2, Nat.add_div_right _ hc]
  have hlen : (plan fileSize chunkByteSize).length
      = (fileSize + chunkByteSize - 1) / chunkByteSize := by
    rw [hplan]; simp
  refine ⟨hlen, ?_, ?_, ?_, ?_⟩
  · rw [hlen, hceil1]
    exact Nat.succ_pos _
  · intro k hk
    simp only [hplan, List.get_eq_getElem, List.getElem_map, List.getElem_range]
    refine ⟨?_, ?_, ?_⟩ <;> trivial
  · intro k hk1
    have hk1' : k + 1 < (fileSize - 1) / chunkByteSize + 1 := by
      rw [hlen, hceil1] at hk1; exact hk1
    have hmul : (k + 1) * chunkByteSize ≤ fileSize - 1 :=
      (Nat.le_div_iff_mul_le hc).mp (by omega)
    have hsucc : (k + 1) * chunkByteSize = k * chunkByteSize + chunkByteSize :=
      Nat.succ_mul _ _
    have hminc : min chunkByteSize (fileSize - k * chunkByteSize) = chunkByteSize := by
      apply min_eq_left
      omega
    constructor
    · simp only [hplan, List.get_eq_getElem, List.getElem_map, List.getElem_range]
      exact hminc
    · simp only [hplan, List.get_eq_getElem, List.getElem_map, List.getElem_range]
      rw [hminc]
      exact hsucc
  · exact multiPartUploadLoop_sumLength chunkByteSize hc fileSize fileSize 0 0 le_rfl

/-- Witness for C5: a 5-byte file in chunks of 2 sums back to 5 bytes
over ceil(5/2) = 3 parts. -/
theorem c5_planPartitionWitness :
    0 < 5 ∧ 0 < 2 ∧ ((plan 5 2).map PartDescriptor.length).sum = 5 :=
  ⟨by decide, by decide, (c5_planPartition 5 2 (by decide) (by decide)).2.2.2.2⟩

/-- Claim C6: the claim asserts that with `concurrencyLimit = 0` or an
empty backlog the aggregate future resolves immediately with `[]`.  In
the code, `resolveAll` is only ever invoked from a completed task's
`then` callback; with no task ever started the aggregate promise can
never settle.  Formally: from either such initial state every event-loop
run leaves `promiseAll` pending (`none`) — the returned promise is
pending forever. -/
theorem c6_neverSettles (E T : Type) (C : Nat) (ts : List (Except E T))
    (evs evs2 : List QueueEvent) :
    (runEvents (initQueue C ([] : List (Except E T))) evs).promiseAll = none ∧
    (runEvents (initQueue 0 ts) evs2).promiseAll = none := by
  constructor
  · rw [initQueue_nil, runEvents_fixed rfl rfl]
    rfl
  · rw [initQueue_zero, runEvents_fixed rfl rfl]
    rfl

/-- Claim C7: `execute()` is idempotent: in any state reachable after a
first `execute()` — before or after the aggregate settles — a second
`execute()` finds `finalized` set and is the identity: no task is
started again (the whole state, including `queuePos` and `inFlight`, is
unchanged) and the future it returns is the queue's one `promiseAll`,
the same future the first call returned. -/
theorem c7_executeIdempotent {E T : Type} (C : Nat) (ts : List (Except E T))
    (evs : List QueueEvent) :
    PromiseQueue.execute (runEvents (initQueue C ts) evs)
      = runEvents (initQueue C ts) evs := by
  have hinv := invP_runEvents evs _ (invP_initQueue C ts)
  unfold PromiseQueue.execute
  rw [if_pos hinv.hFinalized]

/-- Claim C8: before `execute()` has been invoked, `add` appends the
operation to the backlog (it behaves exactly as adding it to the
submitted list); in any state reachable after `execute()` has been
invoked, `add` throws `QueueFinalizedError` (modelled as
`Except.error`), leaving the state unchanged. -/
theorem c8_addOnlyBeforeExecute {E T : Type} (C : Nat) (pre ts : List (Except E T))
    (t : Except E T) (evs : List QueueEvent) :
    PromiseQueue.add (addList (PromiseQueue.new C) pre) t
        = Except.ok (addList (PromiseQueue.new C) (pre ++ [t])) ∧
    PromiseQueue.add (runEvents (initQueue C ts) evs) t
        = Except.error QueueError.queueFinalized := by
  constructor
  · rw [addList_of_not_finalized pre (PromiseQueue.new C) rfl,
      addList_of_not_finalized (pre ++ [t]) (PromiseQueue.new C) rfl]
    simp [PromiseQueue.add, PromiseQueue.new]
  · have hinv := invP_runEvents evs _ (invP_initQueue C ts)
    unfold PromiseQueue.add
    rw [if_pos hinv.hFinalized]

/-- Claim C9 counterexample: at `fileSize = 1024 * 5000 = 5120000`
(exactly the threshold) the `S3Uploader.uploadFile` method (which tests
`size >= 1024 * 5_000`) takes the multipart path while the standalone
`uploadFile` function (which tests `size > 1024 * 5_000`) takes the
single-shot `putObject` path, so the two revisions do not select the
same path for every file size. -/
theorem c9_thresholdCounterexample :
    S3Uploader.uploadFilePath (1024 * 5000) = UploadPath.multipart ∧
    uploadFilePath (1024 * 5000) = UploadPath.putObject ∧
    S3Uploader.uploadFilePath (1024 * 5000) ≠ uploadFilePath (1024 * 5000) := by
  refine ⟨?_, ?_, ?_⟩ <;> decide

/-- Claim C9, amended: the two revisions select the same path for every
positive file size except exactly `1024 * 5000 = 5120000` bytes, where
the method chooses multipart and the standalone function chooses the
single-shot path. -/
theorem c9_pathAgreementExceptThreshold (fileSize : Nat) (h0 : 0 < fileSize)
    (h : fileSize ≠ 1024 * 5000) :
    S3Uploader.uploadFilePath fileSize = uploadFilePath fileSize := by
  unfold S3Uploader.uploadFilePath uploadFilePath
  split_ifs with h1 h2 <;> first | rfl | omega

/-- Witness for the amended C9 at `fileSize = 100`. -/
theorem c9_pathAgreementWitness :
    0 < 100 ∧ 100 ≠ 1024 * 5000 ∧
    S3Uploader.uploadFilePath 100 = uploadFilePath 100 :=
  ⟨by decide, by decide, c9_pathAgreementExceptThreshold 100 (by decide) (by decide)⟩

/-- Claim C10: the `assert(bytesRead, ...)` after the part read only
requires the resolved value to be JavaScript-truthy, i.e. non-`null` and
nonzero.  For every read that returns `some n` with `0 < n` — including
every short read `n < partByteSize` — the assertion passes, the task
goes on to upload the entire `partByteSize`-byte buffer whose tail
beyond `n` is the never-written zero fill, and whenever the read is
short the uploaded body differs from the planned bytes
`file[pos .. pos + partByteSize)`. -/
theorem c10_assertAllowsShortRead (data : List Nat) (pos bufSize n : Nat)
    (hn : (FsFile.read ⟨data, pos⟩ bufSize).2.1 = some n) (hpos : 0 < n) :
    jsTruthyBytesRead ((FsFile.read ⟨data, pos⟩ bufSize).2.1) = true ∧
    ((FsFile.read ⟨data, pos⟩ bufSize).1).length = bufSize ∧
    ((FsFile.read ⟨data, pos⟩ bufSize).1).drop n = List.replicate (bufSize - n) 0 ∧
    (n < bufSize →
      (FsFile.read ⟨data, pos⟩ bufSize).1 ≠ (data.drop pos).take bufSize) := by
  unfold FsFile.read at hn ⊢
  split at hn
  · cases hn
  case _ hEOF =>
    dsimp only at hn ⊢
    rw [if_neg hEOF]
    dsimp only
    rw [Option.some.injEq] at hn
    have htlen : ((data.drop pos).take bufSize).length
        = min bufSize (data.length - pos) := by
      simp [List.length_take, List.length_drop]
    have hle : ((data.drop pos).take bufSize).length ≤ bufSize := by
      rw [htlen]; omega
    refine ⟨?_, ?_, ?_, ?_⟩
    · simp [jsTruthyBytesRead]
      omega
    · simp only [List.length_append, List.length_replicate]
      omega
    · rw [← hn, List.drop_left]
    · intro hlt heq2
      have hlen2 := congrArg List.length heq2
      simp only [List.length_append, List.length_replicate] at hlen2
      omega

/-- Witness for C10: a 1-byte file read into a 2-byte buffer: the
assertion passes and the 2-byte body `[5, 0]` is uploaded, which is not
the file's bytes `[5]`. -/
theorem c10_assertAllowsShortReadWitness :
    (FsFile.read ⟨[5], 0⟩ 2).2.1 = some 1 ∧ 0 < 1 ∧
    (jsTruthyBytesRead ((FsFile.read ⟨[5], 0⟩ 2).2.1) = true ∧
      ((FsFile.read ⟨[5], 0⟩ 2).1).length = 2 ∧
      ((FsFile.read ⟨[5], 0⟩ 2).1).drop 1 = List.replicate (2 - 1) 0 ∧
      (1 < 2 → (FsFile.read ⟨[5], 0⟩ 2).1 ≠ (([5] : List Nat).drop 0).take 2)) :=
  ⟨by decide, by decide, c10_assertAllowsShortRead [5] 0 2 1 (by decide) (by decide)⟩

end DragonDrop
